import Mathlib

/-!
Verification development for the deep-decision repository.

The development shallowly embeds the two algorithmic cores of the repository:

* the recursive character text splitter and the token-budget prompt trimmer
  (`src/utils/text/text-splitter.ts`, `src/providers/openai/index.ts`,
  `src/providers/ollama/index.ts`, `src/config/env.ts`), and
* the decision-tree engine (`src/services/decision-service.ts`): node
  normalization, node expansion, the depth-bounded recursive analysis walk
  with its shared completed-branch counter, and the branch-count estimator.

Texts are embedded as `List Char`.  JavaScript functions whose loops or
recursions are not structurally bounded are embedded as fuel-indexed
functions returning `Option`; `none` means the fuel ran out before the
modelled loop finished, so a result of `none` for every fuel models genuine
divergence of the source program.  External capabilities (the structured
generator, the tokenizer, the uuid source) are parameters.
-/

/-! ### Text splitter (`RecursiveCharacterTextSplitter`) -/

/-- Characters occurring in the non-empty default separators. -/
def sepChars : List Char := ['\n', ' ']

/-- The default separator hierarchy of the splitter constructor:
paragraph break, line break, space, and the empty per-character sentinel. -/
def defaultSeparators : List (List Char) := [['\n', '\n'], ['\n'], [' '], []]

/-- Prepend a character to the first piece of a split (helper for the
embedding of JavaScript `String.prototype.split`). -/
def consHead (c : Char) : List (List Char) → List (List Char)
  | [] => [[c]]
  | x :: xs => (c :: x) :: xs

/-- Fuel-indexed embedding of JavaScript `text.split(sep)` for a non-empty
separator: leftmost, non-overlapping matches.  Each step consumes at least
one character, so fuel `t.length` is exact. -/
def splitGo (sep : List Char) : ℕ → List Char → List (List Char)
  | 0, t => [t]
  | f + 1, t =>
    match t with
    | [] => [[]]
    | c :: t2 =>
      if sep.isPrefixOf (c :: t2) then [] :: splitGo sep f ((c :: t2).drop sep.length)
      else consHead c (splitGo sep f t2)

/-- JavaScript `text.split(sep)` for a non-empty separator `sep`. -/
def splitOnSep (sep t : List Char) : List (List Char) := splitGo sep t.length t

/-- The greedy packing loop of `splitTextRecursive`: skip empty segments and
accumulate segments joined by the separator while the accumulated piece
stays within the chunk size, flushing the accumulator on overflow. -/
def packLoop (sep : List Char) (C : ℕ) : List (List Char) → List Char → List (List Char)
  | [], cur => if cur = [] then [] else [cur]
  | s :: rest, cur =>
    if s = [] then packLoop sep C rest cur
    else
      let pot := if cur = [] then s else cur ++ sep ++ s
      if pot.length ≤ C then packLoop sep C rest pot
      else if cur = [] then packLoop sep C rest s
      else cur :: packLoop sep C rest s

/-- JavaScript `text.includes(sep)`. -/
def containsSeq (sep : List Char) : List Char → Bool
  | [] => sep.isEmpty
  | c :: t => sep.isPrefixOf (c :: t) || containsSeq sep t

/-- JavaScript `text.slice(a, b)` (negative indices count from the end). -/
def jsSlice (t : List Char) (a b : ℤ) : List Char :=
  let n : ℤ := t.length
  let lo := if a < 0 then max (n + a) 0 else min a n
  let hi := if b < 0 then max (n + b) 0 else min b n
  (t.drop lo.toNat).take (hi - lo).toNat

/-- Fuel-indexed embedding of the `splitBySize` while loop: emit
`text.slice(i, i + C)` and advance the window by `C - O` (an integer that
is zero or negative when `O ≥ C`, exactly as in the source). -/
def splitBySizeGo (C O : ℕ) (t : List Char) : ℕ → ℤ → Option (List (List Char))
  | 0, i => if i < (t.length : ℤ) then none else some []
  | f + 1, i =>
    if i < (t.length : ℤ) then
      (splitBySizeGo C O t f (i + ((C : ℤ) - (O : ℤ)))).map
        (fun r => jsSlice t i (i + (C : ℤ)) :: r)
    else some []

/-- `splitBySize(text)`: run the window loop from position `0`.  The fuel
`t.length` is sufficient whenever the window advances (`O < C`); when it
does not, the result is `none` for every fuel, modelling the infinite
loop of the source. -/
def splitBySize (C O : ℕ) (t : List Char) : Option (List (List Char)) :=
  splitBySizeGo C O t t.length 0

/-- The separator loop of `splitTextRecursive`: try each separator in order,
accepting the first strategy that yields more than one chunk.  `some []`
means no separator was accepted; `none` means the `""` branch diverged. -/
def trySeps (C O : ℕ) (t : List Char) : List (List Char) → Option (List (List Char))
  | [] => some []
  | sep :: rest =>
    if sep = [] then
      match splitBySize C O t with
      | none => none
      | some chunks => if 1 < chunks.length then some chunks else trySeps C O t rest
    else if containsSeq sep t then
      let gs := packLoop sep C (splitOnSep sep t) []
      if 1 < gs.length then some gs else trySeps C O t rest
    else trySeps C O t rest

/-- The re-splitting pass at the end of `splitTextRecursive`: chunks still
longer than the chunk size are recursively re-split. -/
def recurseChunks (step : List Char → Option (List (List Char))) (C : ℕ) :
    List (List Char) → Option (List (List Char))
  | [] => some []
  | c :: rest =>
    match (if C < c.length then step c else some [c]), recurseChunks step C rest with
    | some h, some r => some (h ++ r)
    | _, _ => none

/-- Fuel-indexed embedding of `splitTextRecursive`. -/
def splitTextRecGo (C O : ℕ) (seps : List (List Char)) : ℕ → List Char → Option (List (List Char))
  | 0, _ => none
  | f + 1, t =>
    match trySeps C O t seps with
    | none => none
    | some fc0 =>
      match (if fc0.length = 0 then splitBySize C O t else some fc0) with
      | none => none
      | some finalChunks => recurseChunks (fun c => splitTextRecGo C O seps f c) C finalChunks

/-- `splitText(text)`: empty text gives no chunks, text within the chunk
size is returned whole, otherwise the recursive splitter runs (with fuel
`t.length`, sufficient whenever the source terminates). -/
def splitText (C O : ℕ) (seps : List (List Char)) (t : List Char) : Option (List (List Char)) :=
  if t = [] then some []
  else if t.length ≤ C then some [t]
  else splitTextRecGo C O seps t.length t

/-- The constructor default `options.chunkSize || 4000` (JavaScript `||`:
`0` is falsy). -/
def splitterChunkSize : Option ℕ → ℕ
  | none => 4000
  | some c => if c = 0 then 4000 else c

/-- The constructor default `options.chunkOverlap || 200` (JavaScript `||`:
an explicitly passed `0` is falsy and is replaced by `200`). -/
def splitterChunkOverlap : Option ℕ → ℕ
  | none => 200
  | some c => if c = 0 then 200 else c

example :
    splitText 3 0 defaultSeparators ("a\n\nb\n\nc".toList) =
      some [['a'], ['b'], ['c']] := by decide

example :
    splitText 4 0 defaultSeparators ("ab cd ef".toList) =
      some ["ab".toList, "cd".toList, "ef".toList] := by decide

example :
    splitText 5 0 defaultSeparators ("ab cd ef".toList) =
      some ["ab cd".toList, "ef".toList] := by decide

example :
    splitText 3 0 defaultSeparators ("abcdefgh".toList) =
      some ["abc".toList, "def".toList, "gh".toList] := by decide

example :
    splitText 3 1 defaultSeparators ("abcdefg".toList) =
      some ["abc".toList, "cde".toList, "efg".toList, "g".toList] := by decide

/-! ### Prompt trimmer (`trimPrompt` of the OpenAI and Ollama providers) -/

/-- `TEXT_CONFIG.MIN_CHUNK_SIZE` from `src/config/env.ts`. -/
def MIN_CHUNK_SIZE : ℕ := 140

/-- Fuel-indexed embedding of `trimPrompt(prompt, contextSize)`.  The
tokenizer `tok` embeds `this.encoder.encode(prompt).length`.  The splitter
is built through the constructor-default embedding, so the explicitly
passed `chunkOverlap: 0` of the source is replaced by `200` exactly as
JavaScript `||` does. -/
def trimPromptGo (tok : List Char → ℕ) (contextSize : ℕ) : ℕ → List Char → Option (List Char)
  | 0, _ => none
  | f + 1, prompt =>
    if prompt = [] then some []
    else
      let length := tok prompt
      if length ≤ contextSize then some prompt
      else
        let overflowTokens := length - contextSize
        let chunkSize : ℤ := (prompt.length : ℤ) - (overflowTokens : ℤ) * 3
        if chunkSize < (MIN_CHUNK_SIZE : ℤ) then some (prompt.take MIN_CHUNK_SIZE)
        else
          let C := splitterChunkSize (some chunkSize.toNat)
          let O := splitterChunkOverlap (some 0)
          match splitText C O defaultSeparators prompt with
          | none => none
          | some chunks =>
            let trimmedPrompt := chunks.headD []
            if trimmedPrompt.length = prompt.length then
              trimPromptGo tok contextSize f (prompt.take chunkSize.toNat)
            else trimPromptGo tok contextSize f trimmedPrompt

/-- `trimPrompt(prompt, contextSize)` with fuel `prompt.length + 1`; each
recursive call of the source strictly shrinks the prompt, so this fuel is
sufficient whenever the source terminates, and a `none` result for every
fuel models divergence of the source. -/
def trimPrompt (tok : List Char → ℕ) (contextSize : ℕ) (prompt : List Char) :
    Option (List Char) :=
  trimPromptGo tok contextSize (prompt.length + 1) prompt

/-! ### Decision tree data model (`src/types/decision.ts`) -/

/-- Node type: decision, chance, or outcome. -/
inductive NType where
  | decision
  | chance
  | outcome
deriving DecidableEq, Repr

/-- `DecisionNode`: a vertex of the decision tree.  `parentId = none`
embeds JavaScript `null` (and the runtime `undefined` that normalization
can also leave in this field). -/
inductive DNode where
  | mk (id : String) (description : String) (ty : NType) (parentId : Option String)
       (risk : Option ℚ) (opportunity : Option ℚ) (probability : Option ℚ)
       (children : List DNode)

def DNode.id : DNode → String
  | .mk i _ _ _ _ _ _ _ => i

def DNode.description : DNode → String
  | .mk _ d _ _ _ _ _ _ => d

def DNode.ty : DNode → NType
  | .mk _ _ t _ _ _ _ _ => t

def DNode.parentId : DNode → Option String
  | .mk _ _ _ p _ _ _ _ => p

def DNode.children : DNode → List DNode
  | .mk _ _ _ _ _ _ _ c => c

/-- Replace the children list of a node, keeping every other field (embeds
the child-list assignments of the source). -/
def setChildren : DNode → List DNode → DNode
  | .mk i d t p r o pr _, cs => .mk i d t p r o pr cs

/-- `GeneratedNode`: schema-validated generator output; every field may be
absent.  `gparentId = none` is an absent field, `gparentId = some none` is
an explicit `null`.  `garray` embeds the `Array.isArray(node.children)`
test (`false` stands for an absent or non-array `children`). -/
inductive GenNode where
  | mk (gid : Option String) (gdescription : Option String) (gty : Option NType)
       (gparentId : Option (Option String)) (grisk : Option ℚ)
       (gopportunity : Option ℚ) (gprobability : Option ℚ)
       (garray : Bool) (gchildren : List GenNode)

def GenNode.gid : GenNode → Option String
  | .mk i _ _ _ _ _ _ _ _ => i

def GenNode.gparentId : GenNode → Option (Option String)
  | .mk _ _ _ p _ _ _ _ _ => p

def GenNode.garray : GenNode → Bool
  | .mk _ _ _ _ _ _ _ a _ => a

def GenNode.gchildren : GenNode → List GenNode
  | .mk _ _ _ _ _ _ _ _ c => c

/-- JavaScript falsiness of an optional string (`undefined` and `""`). -/
def jsFalsyStr : Option String → Bool
  | none => true
  | some s => s = ""

/-- Map a normalization step over a list of generated children with a fixed
default parent id, threading the uuid counter left to right. -/
def normListWith (step : GenNode → Option String → ℕ → DNode × ℕ)
    (dpid : Option String) : List GenNode → ℕ → List DNode × ℕ
  | [], k => ([], k)
  | g :: rest, k =>
    let p := step g dpid k
    let q := normListWith step dpid rest p.2
    (p.1 :: q.1, q.2)

/-- Fuel-indexed embedding of `DecisionService.normalizeNode`.  `uuid k` is
the `k`-th fresh uuid; the counter is threaded in evaluation order (the
node's own id first, then the children left to right).  Note that the
children are normalized with default parent id `node.id`, i.e. the raw
generated id, not the normalized one. -/
def normalizeNode (uuid : ℕ → String) : ℕ → GenNode → Option String → ℕ → DNode × ℕ
  | 0, _, _, k => (.mk "" "" .decision none none none none [], k)
  | f + 1, .mk i d t p r o pr arr cs, dpid, k =>
    let idk := if jsFalsyStr i then (uuid k, k + 1) else (i.getD "", k)
    let csk := if arr then normListWith (fun g dp kk => normalizeNode uuid f g dp kk) i cs idk.2
               else ([], idk.2)
    (.mk idk.1 (if jsFalsyStr d then "未命名选项" else d.getD "") (t.getD .decision)
      (match p with | none => dpid | some q => q) r o pr csk.1, csk.2)

/-- Result of one `expandDecisionNode` call: the (possibly mutated) node,
the next free uuid index, and the number of generation calls issued. -/
structure ExpandResult where
  node : DNode
  nextId : ℕ
  genCalls : ℕ

/-- Embedding of `DecisionService.expandDecisionNode`.  `gen` is the result
the structured-generation capability would return for this node; `nfuel`
bounds the nesting depth of generated children fed to `normalizeNode`
(any value at least the nesting depth gives the source behaviour). -/
def expandDecisionNode (uuid : ℕ → String) (nfuel : ℕ)
    (gen : Except Unit (List GenNode)) (node : DNode) (k : ℕ) : ExpandResult :=
  if 0 < node.children.length then ⟨node, k, 0⟩
  else
    match gen with
    | .error _ => ⟨node, k, 1⟩
    | .ok cs =>
      let p := normListWith (fun g dp kk => normalizeNode uuid nfuel g dp kk)
        (some node.id) cs k
      ⟨setChildren node p.1, p.2, 1⟩

/-- Analyze a list of sibling nodes in order, threading the uuid index and
the shared completed-branch counter (the fan-out/fan-in of the source:
all children are analyzed and then assigned together; the final counter
value does not depend on the interleaving of sibling increments). -/
def analyzeChildren (step : DNode → ℕ → ℕ → DNode × ℕ × ℕ) :
    List DNode → ℕ → ℕ → List DNode × ℕ × ℕ
  | [], k, c => ([], k, c)
  | n :: rest, k, c =>
    let p := step n k c
    let q := analyzeChildren step rest p.2.1 p.2.2
    (p.1 :: q.1, q.2.1, q.2.2)

/-- Embedding of `DecisionService.analyzeDecisionTree`, structurally
recursive on `remaining = maxDepth - depth` (`remaining = 0` is the
`depth >= maxDepth` leaf branch).  Returns the analyzed node, the next
uuid index and the updated completed-branch counter. -/
def analyzeGo (uuid : ℕ → String) (nfuel : ℕ) (gen : DNode → Except Unit (List GenNode))
    (maxDepth : ℕ) : ℕ → ℕ → DNode → ℕ → ℕ → DNode × ℕ × ℕ
  | 0, _, node, k, c => (node, k, c + 1)
  | r + 1, depth, node, k, c =>
    let e := expandDecisionNode uuid nfuel (gen node) node k
    let q := analyzeChildren (fun n kk cc => analyzeGo uuid nfuel gen maxDepth r (depth + 1) n kk cc)
      e.node.children e.nextId c
    let c2 := if depth = 0 then q.2.2 + 1 else q.2.2
    (setChildren e.node q.1, q.2.1, c2)

/-- `analyzeDecisionTree` started at an arbitrary depth; the source is
always entered at depth `0`. -/
def analyzeDecisionTree (uuid : ℕ → String) (nfuel : ℕ)
    (gen : DNode → Except Unit (List GenNode)) (maxDepth depth : ℕ)
    (node : DNode) (k c : ℕ) : DNode × ℕ × ℕ :=
  analyzeGo uuid nfuel gen maxDepth (maxDepth - depth) depth node k c

/-- Fuel-indexed embedding of `DecisionService.calculateTotalBranches`
(fuel at least the node height gives the source value). -/
def calculateTotalBranches : ℕ → DNode → ℕ → ℕ → ℕ → ℕ
  | 0, _, _, _, _ => 0
  | f + 1, node, depth, maxDepth, breadth =>
    if maxDepth ≤ depth then 1
    else if 0 < node.children.length then
      1 + (node.children.map (fun c => calculateTotalBranches f c (depth + 1) maxDepth breadth)).sum
    else 1 + breadth * breadth ^ (maxDepth - depth - 1)

/-- Number of nodes of a tree (fuel at least the height is exact). -/
def countNodes : ℕ → DNode → ℕ
  | 0, _ => 0
  | f + 1, n => 1 + (n.children.map (fun c => countNodes f c)).sum

/-- Number of leaves (childless nodes) of a tree. -/
def countLeaves : ℕ → DNode → ℕ
  | 0, _ => 0
  | f + 1, n =>
    if n.children.length = 0 then 1
    else (n.children.map (fun c => countLeaves f c)).sum

/-- Geometric sum `1 + B + B^2 + … + B^d`. -/
def geomSum (B : ℕ) : ℕ → ℕ
  | 0 => 1
  | d + 1 => 1 + B * geomSum B d

/-- Every child of every node carries the id of the node that holds it. -/
inductive ParentLink : DNode → Prop
  | intro (n : DNode) :
      (∀ c ∈ n.children, c.parentId = some n.id) →
      (∀ c ∈ n.children, ParentLink c) → ParentLink n

/-- A shallow, parent-id-omitting generated child (the shape requested by
the expansion schema: `parentId` defaulted, `children` empty). -/
def ShallowGen (g : GenNode) : Prop := g.gparentId = none ∧ g.gchildren = []

/-- A generation oracle whose every output is accepted and shallow. -/
def GoodGen (gen : DNode → Except Unit (List GenNode)) : Prop :=
  ∀ n cs, gen n = .ok cs → ∀ g ∈ cs, ShallowGen g

/-- The deterministic stub generator: every expansion call returns exactly
`B` outcome children with no ids, no parent ids and no children. -/
def stubChild : GenNode :=
  .mk none (some "option") (some .outcome) none none none none true []

def stubGen (B : ℕ) : DNode → Except Unit (List GenNode) :=
  fun _ => .ok (List.replicate B stubChild)

/-- A bare root node with empty children. -/
def bareRoot : DNode := .mk "root" "problem" .decision none none none none []

example :
    (analyzeDecisionTree (fun _ => "u") 1 (stubGen 2) 2 0 bareRoot 0 0).2.2 = 5 := by decide

example :
    countNodes 3 (analyzeDecisionTree (fun _ => "u") 1 (stubGen 2) 2 0 bareRoot 0 0).1 = 7 := by
  decide

example :
    countLeaves 3 (analyzeDecisionTree (fun _ => "u") 1 (stubGen 2) 2 0 bareRoot 0 0).1 = 4 := by
  decide

/-! ### Claims C4, C5, C6, C8 -/

/-- C4: for every tokenizer, budget and text, if the measured token count is
within the budget then `trimPrompt` returns the text unchanged. -/
theorem claim4_trim_identity (tok : List Char → ℕ) (contextSize : ℕ) (prompt : List Char)
    (h : tok prompt ≤ contextSize) :
    trimPrompt tok contextSize prompt = some prompt := by
  unfold trimPrompt
  cases prompt with
  | nil => rfl
  | cons c t => simp [trimPromptGo, h]

theorem claim4_witness :
    List.length ("ab".toList) ≤ 2 ∧ trimPrompt List.length 2 ("ab".toList) = some ("ab".toList) :=
  ⟨by decide, claim4_trim_identity List.length 2 ("ab".toList) (by decide)⟩

/-- C5: a node whose children list is non-empty is returned unchanged by
`expandDecisionNode`, and no generation call is issued. -/
theorem claim5_expand_idempotent (uuid : ℕ → String) (nfuel : ℕ)
    (gen : Except Unit (List GenNode)) (node : DNode) (k : ℕ)
    (h : node.children ≠ []) :
    expandDecisionNode uuid nfuel gen node k = ⟨node, k, 0⟩ := by
  unfold expandDecisionNode
  simp [List.length_pos.mpr h]

theorem claim5_witness :
    expandDecisionNode (fun _ => "u") 1 (.ok [stubChild])
      (.mk "n" "d" .decision none none none none [bareRoot]) 0 =
      ⟨.mk "n" "d" .decision none none none none [bareRoot], 0, 0⟩ :=
  claim5_expand_idempotent _ _ _ _ _ (by simp [DNode.children])

/-- C6: if the generation call fails on a node with empty children, the node
is returned with children still empty (the branch degrades to an
unexpanded leaf); exactly one generation call was attempted. -/
theorem claim6_expand_failure (uuid : ℕ → String) (nfuel : ℕ) (e : Unit)
    (node : DNode) (k : ℕ) (h : node.children = []) :
    expandDecisionNode uuid nfuel (.error e) node k = ⟨node, k, 1⟩ := by
  unfold expandDecisionNode
  simp [h]

theorem claim6_witness :
    expandDecisionNode (fun _ => "u") 1 (.error ()) bareRoot 0 = ⟨bareRoot, 0, 1⟩ :=
  claim6_expand_failure _ _ _ _ _ (by simp [bareRoot, DNode.children])

/-- C8: `calculateTotalBranches` satisfies the recursive closed form of the
specification: `1` at the depth limit, `1 + Σ count(child, depth+1)` for a
node with realized children, and `1 + B^(D - depth)` otherwise. -/
theorem claim8_closed_form (f : ℕ) (node : DNode) (depth maxDepth breadth : ℕ) :
    calculateTotalBranches (f + 1) node depth maxDepth breadth =
      if maxDepth ≤ depth then 1
      else if 0 < node.children.length then
        1 + (node.children.map
          (fun c => calculateTotalBranches f c (depth + 1) maxDepth breadth)).sum
      else 1 + breadth ^ (maxDepth - depth) := by
  by_cases h1 : maxDepth ≤ depth
  · simp [calculateTotalBranches, h1]
  · by_cases h2 : 0 < node.children.length
    · simp [calculateTotalBranches, h1, h2]
    · have hp : breadth * breadth ^ (maxDepth - depth - 1) = breadth ^ (maxDepth - depth) := by
        obtain ⟨n, hn⟩ : ∃ n, maxDepth - depth = n + 1 := ⟨maxDepth - depth - 1, by omega⟩
        rw [hn, Nat.add_sub_cancel, pow_succ, mul_comm]
      simp [calculateTotalBranches, h1, h2, hp]

/-! ### Claim C7: parent links -/

theorem setChildren_id (n : DNode) (l : List DNode) : (setChildren n l).id = n.id := by
  cases n; rfl

theorem setChildren_parentId (n : DNode) (l : List DNode) :
    (setChildren n l).parentId = n.parentId := by
  cases n; rfl

theorem setChildren_children (n : DNode) (l : List DNode) :
    (setChildren n l).children = l := by
  cases n; rfl

theorem ParentLink.children_pid {n : DNode} (h : ParentLink n) :
    ∀ c ∈ n.children, c.parentId = some n.id := by
  cases h with | intro _ h1 h2 => exact h1

theorem ParentLink.children_link {n : DNode} (h : ParentLink n) :
    ∀ c ∈ n.children, ParentLink c := by
  cases h with | intro _ h1 h2 => exact h2

/-- A childless node trivially satisfies the parent-link invariant. -/
theorem ParentLink.of_leaf {n : DNode} (h : n.children = []) : ParentLink n :=
  ParentLink.intro n (by simp [h]) (by simp [h])

theorem normalizeNode_shallow (uuid : ℕ → String) (m : ℕ) (g : GenNode)
    (dpid : Option String) (k : ℕ) (h : ShallowGen g) :
    (normalizeNode uuid (m + 1) g dpid k).1.parentId = dpid ∧
    (normalizeNode uuid (m + 1) g dpid k).1.children = [] := by
  obtain ⟨hp, hc⟩ := h
  cases g with
  | mk i d t p r o pr arr cs =>
    simp only [GenNode.gparentId] at hp
    simp only [GenNode.gchildren] at hc
    subst hp; subst hc
    cases arr <;> simp [normalizeNode, normListWith, DNode.parentId, DNode.children]

theorem normListWith_shallow (uuid : ℕ → String) (m : ℕ) (dpid : Option String) :
    ∀ (cs : List GenNode) (k : ℕ), (∀ g ∈ cs, ShallowGen g) →
    ∀ x ∈ (normListWith (fun g dp kk => normalizeNode uuid (m + 1) g dp kk) dpid cs k).1,
      x.parentId = dpid ∧ x.children = [] := by
  intro cs
  induction cs with
  | nil => intro k _ x hx; simp [normListWith] at hx
  | cons g rest ih =>
    intro k hall x hx
    simp only [normListWith, List.mem_cons] at hx
    rcases hx with hx | hx
    · subst hx
      exact normalizeNode_shallow uuid m g dpid k (hall g (by simp))
    · exact ih _ (fun g2 hg2 => hall g2 (by simp [hg2])) x hx

theorem expand_skip_eq (uuid : ℕ → String) (nfuel : ℕ) (gen : Except Unit (List GenNode))
    (node : DNode) (k : ℕ) (h : node.children ≠ []) :
    expandDecisionNode uuid nfuel gen node k = ⟨node, k, 0⟩ := by
  unfold expandDecisionNode
  simp [List.length_pos.mpr h]

theorem expand_error_eq (uuid : ℕ → String) (nfuel : ℕ) (e : Unit) (node : DNode) (k : ℕ)
    (h : node.children = []) :
    expandDecisionNode uuid nfuel (.error e) node k = ⟨node, k, 1⟩ := by
  unfold expandDecisionNode
  simp [h]

theorem expand_ok_eq (uuid : ℕ → String) (nfuel : ℕ) (cs : List GenNode) (node : DNode)
    (k : ℕ) (h : node.children = []) :
    expandDecisionNode uuid nfuel (.ok cs) node k =
      ⟨setChildren node (normListWith (fun g dp kk => normalizeNode uuid nfuel g dp kk)
          (some node.id) cs k).1,
        (normListWith (fun g dp kk => normalizeNode uuid nfuel g dp kk)
          (some node.id) cs k).2, 1⟩ := by
  unfold expandDecisionNode
  simp [h]

theorem expand_preserves (uuid : ℕ → String) (nfuel : ℕ) (gen : Except Unit (List GenNode))
    (node : DNode) (k : ℕ) :
    (expandDecisionNode uuid nfuel gen node k).node.id = node.id ∧
    (expandDecisionNode uuid nfuel gen node k).node.parentId = node.parentId := by
  by_cases h : node.children = []
  · cases gen with
    | error e => rw [expand_error_eq uuid nfuel e node k h]; exact ⟨rfl, rfl⟩
    | ok cs =>
      rw [expand_ok_eq uuid nfuel cs node k h]
      exact ⟨setChildren_id _ _, setChildren_parentId _ _⟩
  · rw [expand_skip_eq uuid nfuel gen node k h]; exact ⟨rfl, rfl⟩

theorem analyzeChildren_mem (step : DNode → ℕ → ℕ → DNode × ℕ × ℕ) :
    ∀ (l : List DNode) (k c : ℕ), ∀ x ∈ (analyzeChildren step l k c).1,
      ∃ n ∈ l, ∃ kk cc, x = (step n kk cc).1 := by
  intro l
  induction l with
  | nil => intro k c x hx; simp [analyzeChildren] at hx
  | cons n rest ih =>
    intro k c x hx
    simp only [analyzeChildren, List.mem_cons] at hx
    rcases hx with hx | hx
    · exact ⟨n, by simp, k, c, hx⟩
    · obtain ⟨n2, hn2, kk, cc, hx2⟩ := ih _ _ x hx
      exact ⟨n2, by simp [hn2], kk, cc, hx2⟩

theorem analyzeGo_node_eq (uuid : ℕ → String) (nfuel : ℕ)
    (gen : DNode → Except Unit (List GenNode)) (maxDepth r depth : ℕ) (node : DNode)
    (k c : ℕ) :
    (analyzeGo uuid nfuel gen maxDepth (r + 1) depth node k c).1 =
      setChildren (expandDecisionNode uuid nfuel (gen node) node k).node
        (analyzeChildren
          (fun n kk cc => analyzeGo uuid nfuel gen maxDepth r (depth + 1) n kk cc)
          (expandDecisionNode uuid nfuel (gen node) node k).node.children
          (expandDecisionNode uuid nfuel (gen node) node k).nextId c).1 := rfl

theorem analyzeGo_preserves (uuid : ℕ → String) (nfuel : ℕ)
    (gen : DNode → Except Unit (List GenNode)) (maxDepth : ℕ) :
    ∀ (r depth : ℕ) (node : DNode) (k c : ℕ),
      (analyzeGo uuid nfuel gen maxDepth r depth node k c).1.id = node.id ∧
      (analyzeGo uuid nfuel gen maxDepth r depth node k c).1.parentId = node.parentId := by
  intro r depth node k c
  cases r with
  | zero => exact ⟨rfl, rfl⟩
  | succ r =>
    rw [analyzeGo_node_eq]
    rw [setChildren_id, setChildren_parentId]
    exact expand_preserves uuid nfuel (gen node) node k

theorem expand_parentLink (uuid : ℕ → String) (m : ℕ)
    (gen : DNode → Except Unit (List GenNode)) (hg : GoodGen gen) (node : DNode) (k : ℕ)
    (h : ParentLink node) :
    ParentLink (expandDecisionNode uuid (m + 1) (gen node) node k).node := by
  by_cases hc : node.children = []
  · cases hgen : gen node with
    | error e => rw [expand_error_eq uuid (m + 1) e node k hc]; exact h
    | ok cs =>
      rw [expand_ok_eq uuid (m + 1) cs node k hc]
      have hsh := normListWith_shallow uuid m (some node.id) cs k (hg node cs hgen)
      refine ParentLink.intro _ ?_ ?_
      · intro c hcm
        rw [setChildren_children] at hcm
        rw [setChildren_id]
        exact (hsh c hcm).1
      · intro c hcm
        rw [setChildren_children] at hcm
        exact ParentLink.of_leaf (hsh c hcm).2
  · rw [expand_skip_eq uuid (m + 1) (gen node) node k hc]; exact h

theorem analyzeGo_parentLink (uuid : ℕ → String) (m : ℕ)
    (gen : DNode → Except Unit (List GenNode)) (maxDepth : ℕ) (hg : GoodGen gen) :
    ∀ (r depth : ℕ) (node : DNode) (k c : ℕ), ParentLink node →
      ParentLink (analyzeGo uuid (m + 1) gen maxDepth r depth node k c).1 := by
  intro r
  induction r with
  | zero => intro depth node k c h; exact h
  | succ r ih =>
    intro depth node k c h
    rw [analyzeGo_node_eq]
    have hE := expand_parentLink uuid m gen hg node k h
    refine ParentLink.intro _ ?_ ?_
    · intro x hx
      rw [setChildren_children] at hx
      obtain ⟨n, hn, kk, cc, hxeq⟩ := analyzeChildren_mem _ _ _ _ x hx
      subst hxeq
      rw [(analyzeGo_preserves uuid (m + 1) gen maxDepth r (depth + 1) n kk cc).2]
      rw [setChildren_id]
      exact hE.children_pid n hn
    · intro x hx
      rw [setChildren_children] at hx
      obtain ⟨n, hn, kk, cc, hxeq⟩ := analyzeChildren_mem _ _ _ _ x hx
      subst hxeq
      exact ih (depth + 1) n kk cc (hE.children_link n hn)

/-- C7 (amended): for every generation oracle whose outputs are accepted and
omit the `parentId` field (leaving the schema default) with empty children,
the analysis walk preserves the invariant that every child node's
`parentId` equals the id of the node holding it. -/
theorem claim7_parent_links (uuid : ℕ → String) (m : ℕ)
    (gen : DNode → Except Unit (List GenNode)) (maxDepth depth : ℕ) (node : DNode)
    (k c : ℕ) (hg : GoodGen gen) (h : ParentLink node) :
    ParentLink (analyzeDecisionTree uuid (m + 1) gen maxDepth depth node k c).1 :=
  analyzeGo_parentLink uuid m gen maxDepth hg (maxDepth - depth) depth node k c h

theorem stubGen_good (B : ℕ) : GoodGen (stubGen B) := by
  intro n cs h g hg
  have hcs : cs = List.replicate B stubChild := by
    simpa [stubGen] using h.symm
  subst hcs
  have := List.eq_of_mem_replicate hg
  subst this
  exact ⟨rfl, rfl⟩

theorem claim7_witness :
    GoodGen (stubGen 2) ∧
    ParentLink (analyzeDecisionTree (fun _ => "u") 1 (stubGen 2) 2 0 bareRoot 0 0).1 :=
  ⟨stubGen_good 2,
    claim7_parent_links (fun _ => "u") 0 (stubGen 2) 2 0 bareRoot 0 0 (stubGen_good 2)
      (ParentLink.of_leaf rfl)⟩

/-- A schema-accepted generated child carrying an explicit (wrong)
`parentId` field. -/
def badGenChild : GenNode :=
  .mk (some "c1") (some "kid") (some .outcome) (some (some "X")) none none none true []

theorem claim7_counterexample :
    (expandDecisionNode (fun _ => "u") 1 (.ok [badGenChild]) bareRoot 0).node.id = "root" ∧
    ((expandDecisionNode (fun _ => "u") 1 (.ok [badGenChild]) bareRoot 0).node.children.map
      DNode.parentId) = [some "X"] ∧ "X" ≠ "root" := by
  refine ⟨rfl, rfl, ?_⟩
  decide

/-! ### Claims C1 and C9: counts under the deterministic stub generator -/

theorem countNodes_succ (f : ℕ) (n : DNode) :
    countNodes (f + 1) n = 1 + (n.children.map (countNodes f)).sum := rfl

theorem countLeaves_succ (f : ℕ) (n : DNode) :
    countLeaves (f + 1) n =
      if n.children.length = 0 then 1 else (n.children.map (countLeaves f)).sum := rfl

theorem normalizeNode_stub (uuid : ℕ → String) (m : ℕ) (dpid : Option String) (k : ℕ) :
    normalizeNode uuid (m + 1) stubChild dpid k =
      (.mk (uuid k) "option" .outcome dpid none none none [], k + 1) := rfl

theorem normListWith_stub (uuid : ℕ → String) (m : ℕ) (dpid : Option String) :
    ∀ (B k : ℕ),
      (normListWith (fun g dp kk => normalizeNode uuid (m + 1) g dp kk) dpid
        (List.replicate B stubChild) k).2 = k + B ∧
      (normListWith (fun g dp kk => normalizeNode uuid (m + 1) g dp kk) dpid
        (List.replicate B stubChild) k).1.length = B ∧
      ∀ x ∈ (normListWith (fun g dp kk => normalizeNode uuid (m + 1) g dp kk) dpid
        (List.replicate B stubChild) k).1, x.children = [] := by
  intro B
  induction B with
  | zero => intro k; refine ⟨rfl, rfl, ?_⟩; intro x hx; simp [normListWith] at hx
  | succ B ih =>
    intro k
    have hrep : List.replicate (B + 1) stubChild = stubChild :: List.replicate B stubChild :=
      List.replicate_succ _ _
    rw [hrep]
    simp only [normListWith, normalizeNode_stub]
    obtain ⟨h2, h1, hk⟩ := ih (k + 1)
    refine ⟨by rw [h2]; omega, by simp [h1], ?_⟩
    intro x hx
    rcases List.mem_cons.mp hx with hx | hx
    · subst hx; rfl
    · exact hk x hx

theorem expand_stub (uuid : ℕ → String) (m B : ℕ) (node : DNode) (k : ℕ)
    (h : node.children = []) :
    ∃ l, expandDecisionNode uuid (m + 1) (stubGen B node) node k = ⟨setChildren node l, k + B, 1⟩ ∧
      l.length = B ∧ ∀ x ∈ l, x.children = [] := by
  have hgen : stubGen B node = .ok (List.replicate B stubChild) := rfl
  rw [hgen, expand_ok_eq uuid (m + 1) (List.replicate B stubChild) node k h]
  obtain ⟨h2, h1, hk⟩ := normListWith_stub uuid m (some node.id) B k
  exact ⟨_, by rw [h2], h1, hk⟩

theorem analyzeGo_succ_eq (uuid : ℕ → String) (nfuel : ℕ)
    (gen : DNode → Except Unit (List GenNode)) (maxDepth r depth : ℕ) (node : DNode)
    (k c : ℕ) :
    analyzeGo uuid nfuel gen maxDepth (r + 1) depth node k c =
      ((setChildren (expandDecisionNode uuid nfuel (gen node) node k).node
        (analyzeChildren
          (fun n kk cc => analyzeGo uuid nfuel gen maxDepth r (depth + 1) n kk cc)
          (expandDecisionNode uuid nfuel (gen node) node k).node.children
          (expandDecisionNode uuid nfuel (gen node) node k).nextId c).1),
       (analyzeChildren
          (fun n kk cc => analyzeGo uuid nfuel gen maxDepth r (depth + 1) n kk cc)
          (expandDecisionNode uuid nfuel (gen node) node k).node.children
          (expandDecisionNode uuid nfuel (gen node) node k).nextId c).2.1,
       (if depth = 0 then
          (analyzeChildren
            (fun n kk cc => analyzeGo uuid nfuel gen maxDepth r (depth + 1) n kk cc)
            (expandDecisionNode uuid nfuel (gen node) node k).node.children
            (expandDecisionNode uuid nfuel (gen node) node k).nextId c).2.2 + 1
        else
          (analyzeChildren
            (fun n kk cc => analyzeGo uuid nfuel gen maxDepth r (depth + 1) n kk cc)
            (expandDecisionNode uuid nfuel (gen node) node k).node.children
            (expandDecisionNode uuid nfuel (gen node) node k).nextId c).2.2)) := rfl

theorem analyzeChildren_uniform (step : DNode → ℕ → ℕ → DNode × ℕ × ℕ)
    (A LA X : ℕ) (cnt lvs : DNode → ℕ)
    (hstep : ∀ n kk cc, n.children = [] →
      cnt (step n kk cc).1 = A ∧ lvs (step n kk cc).1 = LA ∧ (step n kk cc).2.2 = cc + X) :
    ∀ (l : List DNode) (k c : ℕ), (∀ x ∈ l, x.children = []) →
      ((analyzeChildren step l k c).1.map cnt).sum = l.length * A ∧
      ((analyzeChildren step l k c).1.map lvs).sum = l.length * LA ∧
      (analyzeChildren step l k c).1.length = l.length ∧
      (analyzeChildren step l k c).2.2 = c + l.length * X := by
  intro l
  induction l with
  | nil => intro k c _; exact ⟨by simp [analyzeChildren], by simp [analyzeChildren], rfl, by simp [analyzeChildren]⟩
  | cons n rest ih =>
    intro k c hall
    obtain ⟨hA, hL, hX⟩ := hstep n k c (hall n (by simp))
    obtain ⟨ihA, ihL, ihLen, ihX⟩ :=
      ih (step n k c).2.1 (step n k c).2.2 (fun x hx => hall x (by simp [hx]))
    simp only [analyzeChildren, List.map_cons, List.sum_cons, List.length_cons]
    refine ⟨?_, ?_, ?_, ?_⟩
    · rw [hA, ihA]; ring
    · rw [hL, ihL]; ring
    · rw [ihLen]
    · rw [ihX, hX]; ring

theorem analyzeGo_stub_counts (uuid : ℕ → String) (m B maxDepth : ℕ) (hB : 1 ≤ B) :
    ∀ (r depth : ℕ) (node : DNode) (k c : ℕ), node.children = [] →
      countNodes (r + 1) (analyzeGo uuid (m + 1) (stubGen B) maxDepth r depth node k c).1 =
        geomSum B r ∧
      countLeaves (r + 1) (analyzeGo uuid (m + 1) (stubGen B) maxDepth r depth node k c).1 =
        B ^ r ∧
      (analyzeGo uuid (m + 1) (stubGen B) maxDepth r depth node k c).2.2 =
        c + B ^ r + (if depth = 0 ∧ r ≠ 0 then 1 else 0) := by
  intro r
  induction r with
  | zero =>
    intro depth node k c h
    refine ⟨by simp [analyzeGo, countNodes_succ, h, geomSum],
      by simp [analyzeGo, countLeaves_succ, h], ?_⟩
    simp [analyzeGo]
  | succ r ih =>
    intro depth node k c h
    obtain ⟨l, hExp, hLen, hKids⟩ := expand_stub uuid m B node k h
    rw [analyzeGo_succ_eq, hExp]
    simp only [setChildren_children]
    obtain ⟨hA, hL, hLen2, hX⟩ :=
      analyzeChildren_uniform
        (fun n kk cc => analyzeGo uuid (m + 1) (stubGen B) maxDepth r (depth + 1) n kk cc)
        (geomSum B r) (B ^ r) (B ^ r) (countNodes (r + 1)) (countLeaves (r + 1))
        (fun n kk cc hn => by
          obtain ⟨h1, h2, h3⟩ := ih (depth + 1) n kk cc hn
          exact ⟨h1, h2, by simpa using h3⟩)
        l (k + B) c hKids
    refine ⟨?_, ?_, ?_⟩
    · rw [countNodes_succ, setChildren_children, hA, hLen]
      simp [geomSum]
    · rw [countLeaves_succ, setChildren_children, hLen2, hLen, hL, hLen]
      have hBne : B ≠ 0 := by omega
      simp [hBne, pow_succ]
      ring
    · rw [hX, hLen]
      have hpow : B * B ^ r = B ^ (r + 1) := by rw [pow_succ]; ring
      by_cases hd : depth = 0 <;> simp [hd, hpow]

/-- C1 (amended): with the deterministic stub generator returning exactly
`B ≥ 1` children at every expansion call, the walk from a childless root at
depth 0 terminates and realizes a full `B`-ary tree: the total node count
is the geometric sum `1 + B + … + B^maxDepth`, the leaf count is
`B^maxDepth`, and the shared `completedBranches` counter finishes at
`B^maxDepth + 1` when `maxDepth ≥ 1` (at `1` when `maxDepth = 0`). -/
theorem claim1_stub_tree (uuid : ℕ → String) (m B maxDepth k c : ℕ) (node : DNode)
    (hB : 1 ≤ B) (h : node.children = []) :
    countNodes (maxDepth + 1)
      (analyzeDecisionTree uuid (m + 1) (stubGen B) maxDepth 0 node k c).1 =
        geomSum B maxDepth ∧
    countLeaves (maxDepth + 1)
      (analyzeDecisionTree uuid (m + 1) (stubGen B) maxDepth 0 node k c).1 = B ^ maxDepth ∧
    (analyzeDecisionTree uuid (m + 1) (stubGen B) maxDepth 0 node k c).2.2 =
      c + B ^ maxDepth + (if maxDepth = 0 then 0 else 1) := by
  have hmain := analyzeGo_stub_counts uuid m B maxDepth hB maxDepth 0 node k c h
  have heq : analyzeDecisionTree uuid (m + 1) (stubGen B) maxDepth 0 node k c =
      analyzeGo uuid (m + 1) (stubGen B) maxDepth maxDepth 0 node k c := by
    unfold analyzeDecisionTree
    rw [Nat.sub_zero]
  rw [heq]
  refine ⟨hmain.1, hmain.2.1, ?_⟩
  rw [hmain.2.2]
  by_cases hd : maxDepth = 0 <;> simp [hd]

theorem claim1_witness :
    1 ≤ 2 ∧ bareRoot.children = [] ∧
    countNodes 3 (analyzeDecisionTree (fun _ => "u") 1 (stubGen 2) 2 0 bareRoot 0 0).1 =
      geomSum 2 2 ∧
    countLeaves 3 (analyzeDecisionTree (fun _ => "u") 1 (stubGen 2) 2 0 bareRoot 0 0).1 =
      2 ^ 2 ∧
    (analyzeDecisionTree (fun _ => "u") 1 (stubGen 2) 2 0 bareRoot 0 0).2.2 =
      0 + 2 ^ 2 + 1 := by
  have := claim1_stub_tree (fun _ => "u") 0 2 2 0 0 bareRoot (by decide) rfl
  exact ⟨by decide, rfl, this.1, this.2.1, by rw [this.2.2]; decide⟩

/-- C1 counterexample: at `B = 2`, `maxDepth = 2` the realized leaf count is
`4` and the final counter is `5`, while the claimed value
`1 + B + B^2 = 7` matches neither. -/
theorem claim1_counterexample :
    countLeaves 3 (analyzeDecisionTree (fun _ => "u") 1 (stubGen 2) 2 0 bareRoot 0 0).1 = 4 ∧
    (analyzeDecisionTree (fun _ => "u") 1 (stubGen 2) 2 0 bareRoot 0 0).2.2 = 5 ∧
    geomSum 2 2 = 7 ∧ (4 : ℕ) ≠ 7 ∧ (5 : ℕ) ≠ 7 := by decide

/-- The C9 scenario's initial tree: a root with two realized first-level
chance children and no deeper structure. -/
def initTree9 : DNode :=
  .mk "root" "d" .decision none none none none
    [.mk "c1" "o1" .chance (some "root") none none none [],
     .mk "c2" "o2" .chance (some "root") none none none []]

/-- C9 (amended): in the scenario (initial tree of breadth 2, maxDepth 2,
stub expander returning exactly 2 outcome children) the final tree has
`1 + 2 + 4 = 7` nodes; the pre-expansion prediction
`calculateTotalBranches(initialTree, 0)` is `7` as well, not `1 + 2^2 = 5`;
the value that stays behind is the final `completedBranches` count `5`. -/
theorem claim9_scenario :
    countNodes 3 (analyzeDecisionTree (fun _ => "u") 1 (stubGen 2) 2 0 initTree9 0 0).1 = 7 ∧
    (∀ f : ℕ, calculateTotalBranches (f + 2) initTree9 0 2 2 = 7) ∧
    (analyzeDecisionTree (fun _ => "u") 1 (stubGen 2) 2 0 initTree9 0 0).2.2 = 5 := by
  refine ⟨by decide, ?_, by decide⟩
  intro f
  simp [calculateTotalBranches, initTree9, DNode.children]

/-- C9 counterexample: the pre-expansion prediction on the scenario's
initial tree is `7`, not the claimed `5`. -/
theorem claim9_counterexample :
    calculateTotalBranches 2 initTree9 0 2 2 = 7 ∧ (7 : ℕ) ≠ 5 := by decide

/-! ### Splitter lemmas: reconstruction, sublists, counts -/

/-- Join pieces with a separator (the inverse of a separator split). -/
def joinSep (sep : List Char) : List (List Char) → List Char
  | [] => []
  | [x] => x
  | x :: y :: rest => x ++ sep ++ joinSep sep (y :: rest)

theorem joinSep_cons (sep x : List Char) (l : List (List Char)) (h : l ≠ []) :
    joinSep sep (x :: l) = x ++ sep ++ joinSep sep l := by
  cases l with
  | nil => exact absurd rfl h
  | cons y rest => rfl

theorem consHead_ne_nil (c : Char) (l : List (List Char)) : consHead c l ≠ [] := by
  cases l <;> simp [consHead]

theorem joinSep_consHead (sep : List Char) (c : Char) (l : List (List Char)) (h : l ≠ []) :
    joinSep sep (consHead c l) = c :: joinSep sep l := by
  cases l with
  | nil => exact absurd rfl h
  | cons x xs =>
    cases xs with
    | nil => rfl
    | cons y rest => simp [consHead, joinSep]

theorem splitGo_ne_nil (sep : List Char) : ∀ (f : ℕ) (t : List Char), splitGo sep f t ≠ [] := by
  intro f t
  cases f with
  | zero => simp [splitGo]
  | succ f =>
    cases t with
    | nil => simp [splitGo]
    | cons c t2 =>
      simp only [splitGo]
      by_cases hp : sep.isPrefixOf (c :: t2) <;> simp [hp, consHead_ne_nil]

theorem joinSep_splitGo (sep : List Char) :
    ∀ (f : ℕ) (t : List Char), joinSep sep (splitGo sep f t) = t := by
  intro f
  induction f with
  | zero => intro t; rfl
  | succ f ih =>
    intro t
    cases t with
    | nil => rfl
    | cons c t2 =>
      by_cases hp : sep.isPrefixOf (c :: t2)
      · have hpre : sep <+: (c :: t2) := List.isPrefixOf_iff_prefix.mp hp
        obtain ⟨s, hs⟩ := hpre
        simp only [splitGo, hp, if_pos]
        rw [joinSep_cons sep [] _ (splitGo_ne_nil sep f _), ih]
        rw [← hs, List.nil_append, List.drop_left]
      · simp only [splitGo, hp, if_neg, Bool.false_eq_true, not_false_iff]
        rw [joinSep_consHead sep c _ (splitGo_ne_nil sep f t2), ih]

theorem count_joinSep (sep : List Char) (ch : Char) (hc : sep.count ch = 0) :
    ∀ l : List (List Char), (joinSep sep l).count ch = (l.map (List.count ch)).sum := by
  intro l
  induction l with
  | nil => rfl
  | cons x xs ih =>
    cases xs with
    | nil => simp [joinSep]
    | cons y rest =>
      rw [joinSep_cons sep x _ (by simp)]
      simp only [List.count_append, List.map_cons, List.sum_cons] at ih ⊢
      rw [hc, ih]
      ring

theorem sublist_pad_left {X Y : List Char} (sep : List Char) (h : X.Sublist Y) :
    X.Sublist (sep ++ Y) :=
  h.trans (List.sublist_append_right sep Y)

theorem sublist_append_congr {X Y : List Char} (cur : List Char) (h : X.Sublist Y) :
    (cur ++ X).Sublist (cur ++ Y) :=
  List.Sublist.append (List.Sublist.refl cur) h

theorem join_cons_eq (x : List Char) (l : List (List Char)) :
    (x :: l).join = x ++ l.join := rfl

/-- The text a `packLoop` state stands for: the accumulator followed by the
remaining segments joined with the separator. -/
def packRef (sep cur : List Char) (segs : List (List Char)) : List Char :=
  if cur = [] then joinSep sep segs
  else if segs = [] then cur
  else cur ++ sep ++ joinSep sep segs

theorem packLoop_cons_nil (sep : List Char) (C : ℕ) (s : List Char)
    (rest : List (List Char)) (hs : s ≠ []) :
    packLoop sep C (s :: rest) [] = packLoop sep C rest s := by
  simp only [packLoop, if_neg hs]
  by_cases h : s.length ≤ C <;> simp [h]

theorem packLoop_cons_cons (sep : List Char) (C : ℕ) (s cur : List Char)
    (rest : List (List Char)) (hs : s ≠ []) (hcur : cur ≠ []) :
    packLoop sep C (s :: rest) cur =
      if (cur ++ sep ++ s).length ≤ C then packLoop sep C rest (cur ++ sep ++ s)
      else cur :: packLoop sep C rest s := by
  simp [packLoop, hs, hcur]

theorem packRef_head (sep s : List Char) (rest : List (List Char)) (hs : s ≠ []) :
    packRef sep s rest = joinSep sep (s :: rest) := by
  cases rest with
  | nil => simp [packRef, joinSep, hs]
  | cons y ys => simp [packRef, hs, joinSep_cons sep s (y :: ys) (by simp)]

theorem packRef_skip (sep cur : List Char) (rest : List (List Char)) :
    (packRef sep cur rest).Sublist (packRef sep cur ([] :: rest)) := by
  by_cases hcur : cur = []
  · subst hcur
    cases rest with
    | nil => simp [packRef, joinSep]
    | cons y ys =>
      simp only [packRef, if_pos rfl]
      rw [joinSep_cons sep [] (y :: ys) (by simp), List.nil_append]
      exact List.sublist_append_right sep _
  · cases rest with
    | nil =>
      simp only [packRef, if_neg hcur, if_pos rfl,
        if_neg (by simp : ([] :: ([] : List (List Char))) ≠ [])]
      simp [joinSep]
    | cons y ys =>
      simp only [packRef, if_neg hcur, if_neg (by simp : (y :: ys : List (List Char)) ≠ []),
        if_neg (by simp : ([] :: y :: ys : List (List Char)) ≠ [])]
      rw [joinSep_cons sep [] (y :: ys) (by simp), List.nil_append]
      exact sublist_append_congr (cur ++ sep)
        (sublist_pad_left sep (List.Sublist.refl (joinSep sep (y :: ys))))

theorem packLoop_mem_ne_nil (sep : List Char) (C : ℕ) :
    ∀ (segs : List (List Char)) (cur x : List Char),
      x ∈ packLoop sep C segs cur → x ≠ [] := by
  intro segs
  induction segs with
  | nil =>
    intro cur x hx
    by_cases hcur : cur = [] <;> simp [packLoop, hcur] at hx
    subst hx; exact hcur
  | cons s rest ih =>
    intro cur x hx
    by_cases hs : s = []
    · subst hs; simp only [packLoop, if_pos rfl] at hx; exact ih cur x hx
    · by_cases hcur : cur = []
      · subst hcur
        rw [packLoop_cons_nil sep C s rest hs] at hx
        exact ih s x hx
      · rw [packLoop_cons_cons sep C s cur rest hs hcur] at hx
        by_cases hfit : (cur ++ sep ++ s).length ≤ C
        · rw [if_pos hfit] at hx; exact ih _ x hx
        · rw [if_neg hfit] at hx
          rcases List.mem_cons.mp hx with hx | hx
          · subst hx; exact hcur
          · exact ih s x hx

theorem packLoop_sublist (sep : List Char) (C : ℕ) :
    ∀ (segs : List (List Char)) (cur : List Char),
      ((packLoop sep C segs cur).join).Sublist (packRef sep cur segs) := by
  intro segs
  induction segs with
  | nil =>
    intro cur
    by_cases hcur : cur = []
    · simp [packLoop, packRef, hcur]
    · simp only [packLoop, if_neg hcur, packRef, if_pos rfl]
      simp
  | cons s rest ih =>
    intro cur
    by_cases hs : s = []
    · subst hs
      have hpl : packLoop sep C ([] :: rest) cur = packLoop sep C rest cur := by
        simp [packLoop]
      rw [hpl]
      exact (ih cur).trans (packRef_skip sep cur rest)
    · by_cases hcur : cur = []
      · subst hcur
        rw [packLoop_cons_nil sep C s rest hs]
        have hgoal : packRef sep ([] : List Char) (s :: rest) = packRef sep s rest := by
          rw [packRef_head sep s rest hs]; simp [packRef]
        rw [hgoal]
        exact ih s
      · rw [packLoop_cons_cons sep C s cur rest hs hcur]
        by_cases hfit : (cur ++ sep ++ s).length ≤ C
        · rw [if_pos hfit]
          have hEq : packRef sep (cur ++ sep ++ s) rest = packRef sep cur (s :: rest) := by
            have hpot : cur ++ sep ++ s ≠ [] := by simp [hcur]
            cases rest with
            | nil => simp [packRef, hpot, hcur, joinSep]
            | cons y ys =>
              simp only [packRef, if_neg hpot, if_neg hcur,
                if_neg (by simp : (y :: ys : List (List Char)) ≠ []),
                if_neg (by simp : (s :: y :: ys : List (List Char)) ≠ [])]
              rw [joinSep_cons sep s (y :: ys) (by simp)]
              simp [List.append_assoc]
          rw [← hEq]
          exact ih (cur ++ sep ++ s)
        · rw [if_neg hfit]
          have hRHS : packRef sep cur (s :: rest) =
              cur ++ (sep ++ joinSep sep (s :: rest)) := by
            simp [packRef, hcur, List.append_assoc]
          rw [hRHS, join_cons_eq]
          apply sublist_append_congr cur
          apply sublist_pad_left sep
          rw [← packRef_head sep s rest hs]
          exact ih s

theorem packLoop_count (sep : List Char) (C : ℕ) (ch : Char) (hc : sep.count ch = 0) :
    ∀ (segs : List (List Char)) (cur : List Char),
      ((packLoop sep C segs cur).join).count ch =
        cur.count ch + (segs.map (List.count ch)).sum := by
  intro segs
  induction segs with
  | nil =>
    intro cur
    by_cases hcur : cur = [] <;> simp [packLoop, hcur]
  | cons s rest ih =>
    intro cur
    by_cases hs : s = []
    · subst hs
      have hpl : packLoop sep C ([] :: rest) cur = packLoop sep C rest cur := by
        simp [packLoop]
      rw [hpl, ih cur]
      simp
    · by_cases hcur : cur = []
      · subst hcur
        rw [packLoop_cons_nil sep C s rest hs, ih s]
        simp
      · rw [packLoop_cons_cons sep C s cur rest hs hcur]
        by_cases hfit : (cur ++ sep ++ s).length ≤ C
        · rw [if_pos hfit, ih (cur ++ sep ++ s)]
          simp [List.count_append, hc]
          omega
        · rw [if_neg hfit, join_cons_eq]
          simp only [List.count_append, ih s, List.map_cons, List.sum_cons]

theorem splitBySizeGo_stalls (C O : ℕ) (t : List Char) (hCO : C ≤ O) (ht : t ≠ []) :
    ∀ (f : ℕ) (i : ℤ), i ≤ 0 → splitBySizeGo C O t f i = none := by
  have hlen : (0 : ℤ) < t.length := by exact_mod_cast List.length_pos.mpr ht
  have hstep : (C : ℤ) ≤ (O : ℤ) := by exact_mod_cast hCO
  intro f
  induction f with
  | zero =>
    intro i hi
    simp [splitBySizeGo, lt_of_le_of_lt hi hlen]
  | succ f ih =>
    intro i hi
    simp only [splitBySizeGo, if_pos (lt_of_le_of_lt hi hlen)]
    rw [ih (i + ((C : ℤ) - (O : ℤ))) (by omega)]
    rfl

theorem splitBySizeGo_isSome (C O : ℕ) (t : List Char) (hCO : O < C) :
    ∀ (f : ℕ) (i : ℤ), (t.length : ℤ) ≤ i + f → (splitBySizeGo C O t f i).isSome := by
  have hstep : (O : ℤ) < (C : ℤ) := by exact_mod_cast hCO
  intro f
  induction f with
  | zero =>
    intro i hi
    simp only [Nat.cast_zero, add_zero] at hi
    simp [splitBySizeGo, not_lt.mpr hi]
  | succ f ih =>
    intro i hi
    by_cases hg : i < (t.length : ℤ)
    · simp only [splitBySizeGo, if_pos hg]
      have hrec := ih (i + ((C : ℤ) - (O : ℤ))) (by push_cast at hi ⊢; omega)
      obtain ⟨r, hr⟩ := Option.isSome_iff_exists.mp hrec
      rw [hr]
      rfl
    · simp [splitBySizeGo, hg]

theorem jsSlice_nonneg (t : List Char) (a b : ℤ) (ha : 0 ≤ a) (hb : 0 ≤ b) :
    jsSlice t a b = (t.drop (min a (t.length : ℤ)).toNat).take
      (min b (t.length : ℤ) - min a (t.length : ℤ)).toNat := by
  unfold jsSlice
  simp [not_lt.mpr ha, not_lt.mpr hb]

theorem jsSlice_length_le (t : List Char) (i : ℤ) (C : ℕ) (hi : 0 ≤ i) :
    (jsSlice t i (i + (C : ℤ))).length ≤ C := by
  rw [jsSlice_nonneg t i (i + (C : ℤ)) hi (by omega)]
  rw [List.length_take, List.length_drop]
  omega

theorem splitBySizeGo_mem_length (C O : ℕ) (t : List Char) (hCO : O < C) :
    ∀ (f : ℕ) (i : ℤ) (l : List (List Char)), 0 ≤ i → splitBySizeGo C O t f i = some l →
      ∀ x ∈ l, x.length ≤ C := by
  intro f
  induction f with
  | zero =>
    intro i l hi hsome
    by_cases hg : i < (t.length : ℤ) <;> simp [splitBySizeGo, hg] at hsome
    subst hsome
    intro x hx
    simp at hx
  | succ f ih =>
    intro i l hi hsome
    by_cases hg : i < (t.length : ℤ)
    · simp only [splitBySizeGo, if_pos hg] at hsome
      cases hrec : splitBySizeGo C O t f (i + ((C : ℤ) - (O : ℤ))) with
      | none => rw [hrec] at hsome; simp at hsome
      | some r =>
        rw [hrec] at hsome
        simp at hsome
        subst hsome
        intro x hx
        rcases List.mem_cons.mp hx with hx | hx
        · subst hx; exact jsSlice_length_le t i C hi
        · exact ih (i + ((C : ℤ) - (O : ℤ))) r (by omega) hrec x hx
    · simp only [splitBySizeGo, if_neg hg, Option.some.injEq] at hsome
      subst hsome
      intro x hx
      simp at hx

theorem splitBySizeGo_join (C : ℕ) (t : List Char) (hC : 1 ≤ C) :
    ∀ (f : ℕ) (i : ℤ) (l : List (List Char)), 0 ≤ i →
      splitBySizeGo C 0 t f i = some l → l.join = t.drop i.toNat := by
  intro f
  induction f with
  | zero =>
    intro i l hi hsome
    by_cases hg : i < (t.length : ℤ) <;> simp [splitBySizeGo, hg] at hsome
    subst hsome
    have hge : t.length ≤ i.toNat := by omega
    simp [List.drop_eq_nil_of_le hge]
  | succ f ih =>
    intro i l hi hsome
    by_cases hg : i < (t.length : ℤ)
    · simp only [splitBySizeGo, if_pos hg] at hsome
      cases hrec : splitBySizeGo C 0 t f (i + ((C : ℤ) - (0 : ℕ))) with
      | none => rw [hrec] at hsome; simp at hsome
      | some r =>
        rw [hrec] at hsome
        simp at hsome
        subst hsome
        have hrj := ih (i + ((C : ℤ) - (0 : ℕ))) r (by omega) hrec
        rw [join_cons_eq, hrj]
        have hiC : (i + ((C : ℤ) - (0 : ℕ))).toNat = i.toNat + C := by push_cast; omega
        rw [hiC]
        rw [jsSlice_nonneg t i (i + (C : ℤ)) hi (by omega)]
        rw [min_eq_left (le_of_lt hg)]
        rw [← List.drop_drop]
        have hlen2 : (min (i + (C : ℤ)) (t.length : ℤ) - i).toNat =
            min C (t.drop i.toNat).length := by
          rw [List.length_drop]
          omega
        rw [hlen2]
        by_cases hcl : C ≤ (t.drop i.toNat).length
        · rw [min_eq_left hcl, List.take_append_drop]
        · rw [min_eq_right (le_of_not_le hcl), List.take_length]
          rw [List.drop_eq_nil_of_le (le_of_not_le hcl), List.append_nil]
    · simp only [splitBySizeGo, if_neg hg, Option.some.injEq] at hsome
      subst hsome
      have hge : t.length ≤ i.toNat := by omega
      simp [List.drop_eq_nil_of_le hge]

theorem splitBySize_isSome (C O : ℕ) (t : List Char) (hCO : O < C) :
    (splitBySize C O t).isSome :=
  splitBySizeGo_isSome C O t hCO t.length 0 (by omega)

theorem splitBySize_none (C O : ℕ) (t : List Char) (hCO : C ≤ O) (ht : t ≠ []) :
    splitBySize C O t = none :=
  splitBySizeGo_stalls C O t hCO ht t.length 0 (le_refl 0)

theorem splitBySize_join (C : ℕ) (t : List Char) (l : List (List Char)) (hC : 1 ≤ C)
    (hl : splitBySize C 0 t = some l) : l.join = t := by
  have := splitBySizeGo_join C t hC t.length 0 l (le_refl 0) hl
  simpa using this

theorem splitBySize_mem_length (C O : ℕ) (t : List Char) (l : List (List Char)) (hCO : O < C)
    (hl : splitBySize C O t = some l) : ∀ x ∈ l, x.length ≤ C :=
  splitBySizeGo_mem_length C O t hCO t.length 0 l (le_refl 0) hl

theorem join_append_eq (l1 l2 : List (List Char)) :
    (l1 ++ l2).join = l1.join ++ l2.join := by
  induction l1 with
  | nil => simp
  | cons x xs ih => simp only [List.cons_append, join_cons_eq, ih, List.append_assoc]

theorem length_le_join_length {x : List Char} {l : List (List Char)} (hx : x ∈ l) :
    x.length ≤ l.join.length := by
  rw [List.length_join]
  exact List.single_le_sum (fun b _ => Nat.zero_le b) _ (List.mem_map_of_mem _ hx)

theorem length_lt_join_length {x : List Char} {l : List (List Char)} (hx : x ∈ l)
    (hlen : 1 < l.length) (hne : ∀ y ∈ l, y ≠ []) : x.length < l.join.length := by
  obtain ⟨s, u, rfl⟩ := List.append_of_mem hx
  have hjoin : (s ++ x :: u).join = s.join ++ (x ++ u.join) := by
    rw [join_append_eq, join_cons_eq]
  rw [hjoin]
  simp only [List.length_append]
  have hone : 1 ≤ s.join.length + u.join.length := by
    rcases s with _ | ⟨a, s2⟩
    · rcases u with _ | ⟨b, u2⟩
      · simp at hlen
      · have hb : b ≠ [] := hne b (by simp)
        have : 1 ≤ b.length := List.length_pos.mpr hb
        have hble := length_le_join_length (show b ∈ b :: u2 by simp)
        omega
    · have ha : a ≠ [] := hne a (by simp)
      have : 1 ≤ a.length := List.length_pos.mpr ha
      have hale := length_le_join_length (show a ∈ a :: s2 by simp)
      omega
  omega

theorem containsSeq_eq_false (sep t : List Char) (hsep : sep ≠ [])
    (hchars : ∀ ch ∈ sep, ch ∈ sepChars) (ht : ∀ ch ∈ t, ch ∉ sepChars) :
    containsSeq sep t = false := by
  induction t with
  | nil => simpa [containsSeq, List.isEmpty_iff] using hsep
  | cons c t2 ih =>
    simp only [containsSeq, Bool.or_eq_false_iff]
    refine ⟨?_, ih (fun ch hch => ht ch (by simp [hch]))⟩
    rw [Bool.eq_false_iff]
    intro hpf
    obtain ⟨w, hw⟩ := List.isPrefixOf_iff_prefix.mp hpf
    cases sep with
    | nil => exact hsep rfl
    | cons s0 srest =>
      have hs0 : s0 = c := by
        have := hw
        simp only [List.cons_append] at this
        exact (List.cons.injEq _ _ _ _ ▸ this).1
      exact ht c (by simp) (hs0 ▸ hchars s0 (by simp))

/-- Well-formedness of a separator list: each entry is the empty sentinel or
consists of separator characters only. -/
def SepsOk (seps : List (List Char)) : Prop :=
  ∀ s ∈ seps, s = [] ∨ ∀ ch ∈ s, ch ∈ sepChars

theorem defaultSeparators_ok : SepsOk defaultSeparators := by
  unfold SepsOk
  decide

/-- The possible accepted outputs of the separator loop. -/
def TrySepsOut (C O : ℕ) (t : List Char) (seps : List (List Char))
    (r : List (List Char)) : Prop :=
  r = [] ∨
  (∃ sep, sep ∈ seps ∧ sep ≠ [] ∧ r = packLoop sep C (splitOnSep sep t) [] ∧ 1 < r.length) ∨
  (splitBySize C O t = some r ∧ 1 < r.length)

theorem TrySepsOut.mono {C O : ℕ} {t : List Char} {rest : List (List Char)}
    {r : List (List Char)} {sep : List Char} (h : TrySepsOut C O t rest r) :
    TrySepsOut C O t (sep :: rest) r := by
  rcases h with h | h | h
  · exact Or.inl h
  · obtain ⟨s2, h1, h2⟩ := h
    exact Or.inr (Or.inl ⟨s2, by simp [h1], h2⟩)
  · exact Or.inr (Or.inr h)

theorem trySeps_spec (C O : ℕ) (t : List Char) (hCO : O < C) :
    ∀ seps : List (List Char),
      ∃ r, trySeps C O t seps = some r ∧ TrySepsOut C O t seps r := by
  intro seps
  induction seps with
  | nil => exact ⟨[], rfl, Or.inl rfl⟩
  | cons sep rest ih =>
    by_cases hsep : sep = []
    · subst hsep
      obtain ⟨chunks, hchunks⟩ := Option.isSome_iff_exists.mp (splitBySize_isSome C O t hCO)
      by_cases hlen : 1 < chunks.length
      · exact ⟨chunks, by simp [trySeps, hchunks, hlen], Or.inr (Or.inr ⟨hchunks, hlen⟩)⟩
      · obtain ⟨r, hr, hp⟩ := ih
        exact ⟨r, by simp [trySeps, hchunks, hlen, hr], hp.mono⟩
    · by_cases hcont : containsSeq sep t = true
      · by_cases hacc : 1 < (packLoop sep C (splitOnSep sep t) []).length
        · exact ⟨_, by simp [trySeps, hsep, hcont, hacc],
            Or.inr (Or.inl ⟨sep, by simp, hsep, rfl, hacc⟩)⟩
        · obtain ⟨r, hr, hp⟩ := ih
          exact ⟨r, by simp [trySeps, hsep, hcont, hacc, hr], hp.mono⟩
      · obtain ⟨r, hr, hp⟩ := ih
        exact ⟨r, by simp [trySeps, hsep, hcont, hr], hp.mono⟩

theorem packLoop_entry_sublist (sep : List Char) (C : ℕ) (t : List Char) :
    ((packLoop sep C (splitOnSep sep t) []).join).Sublist t := by
  have h := packLoop_sublist sep C (splitOnSep sep t) []
  simp only [packRef, if_pos rfl] at h
  unfold splitOnSep at h ⊢
  rw [joinSep_splitGo sep t.length t] at h
  exact h

theorem packLoop_entry_count (sep : List Char) (C : ℕ) (t : List Char) (ch : Char)
    (hc : sep.count ch = 0) :
    ((packLoop sep C (splitOnSep sep t) []).join).count ch = t.count ch := by
  rw [packLoop_count sep C ch hc (splitOnSep sep t) []]
  simp only [List.count_nil, Nat.zero_add]
  rw [← count_joinSep sep ch hc (splitOnSep sep t)]
  unfold splitOnSep
  rw [joinSep_splitGo sep t.length t]

theorem recurseChunks_spec (step : List Char → Option (List (List Char))) (C : ℕ) :
    ∀ fc : List (List Char),
      (∀ x ∈ fc, C < x.length → ∃ o, step x = some o ∧ o.join.Sublist x ∧
        ∀ ch, ch ∉ sepChars → o.join.count ch = x.count ch) →
      ∃ out, recurseChunks step C fc = some out ∧ out.join.Sublist fc.join ∧
        ∀ ch, ch ∉ sepChars → out.join.count ch = fc.join.count ch := by
  intro fc
  induction fc with
  | nil => exact fun _ => ⟨[], rfl, by simp, fun ch _ => rfl⟩
  | cons c rest ih =>
    intro hall
    obtain ⟨out2, hout2, hsub2, hcnt2⟩ := ih (fun x hx h => hall x (by simp [hx]) h)
    by_cases hlen : C < c.length
    · obtain ⟨o, ho, hsub, hcnt⟩ := hall c (by simp) hlen
      refine ⟨o ++ out2, by simp [recurseChunks, hlen, ho, hout2], ?_, ?_⟩
      · rw [join_append_eq, join_cons_eq]
        exact List.Sublist.append hsub hsub2
      · intro ch hch
        rw [join_append_eq, join_cons_eq, List.count_append, List.count_append,
          hcnt ch hch, hcnt2 ch hch]
    · refine ⟨c :: out2, by simp [recurseChunks, hlen, hout2], ?_, ?_⟩
      · rw [join_cons_eq, join_cons_eq]
        exact List.Sublist.append (List.Sublist.refl c) hsub2
      · intro ch hch
        rw [join_cons_eq, join_cons_eq, List.count_append, List.count_append, hcnt2 ch hch]

theorem recurseChunks_isSome (step : List Char → Option (List (List Char))) (C : ℕ) :
    ∀ fc : List (List Char), (∀ x ∈ fc, C < x.length → (step x).isSome) →
      (recurseChunks step C fc).isSome := by
  intro fc
  induction fc with
  | nil => exact fun _ => rfl
  | cons c rest ih =>
    intro hall
    have h2 := ih (fun x hx h => hall x (by simp [hx]) h)
    obtain ⟨out2, hout2⟩ := Option.isSome_iff_exists.mp h2
    by_cases hlen : C < c.length
    · obtain ⟨o, ho⟩ := Option.isSome_iff_exists.mp (hall c (by simp) hlen)
      simp [recurseChunks, hlen, ho, hout2]
    · simp [recurseChunks, hlen, hout2]

theorem splitTextRecGo_succ_eq (C O f : ℕ) (t : List Char) (fc0 fc : List (List Char))
    (h1 : trySeps C O t defaultSeparators = some fc0)
    (h2 : (if fc0.length = 0 then splitBySize C O t else some fc0) = some fc) :
    splitTextRecGo C O defaultSeparators (f + 1) t =
      recurseChunks (fun c => splitTextRecGo C O defaultSeparators f c) C fc := by
  simp only [splitTextRecGo, h1, h2]

theorem packAccepted_facts (sep : List Char) (C : ℕ) (t : List Char)
    (hok : ∀ ch ∈ sep, ch ∈ sepChars)
    (hacc : 1 < (packLoop sep C (splitOnSep sep t) []).length) :
    ((packLoop sep C (splitOnSep sep t) []).join).Sublist t ∧
    (∀ ch, ch ∉ sepChars →
      ((packLoop sep C (splitOnSep sep t) []).join).count ch = t.count ch) ∧
    ∀ x ∈ packLoop sep C (splitOnSep sep t) [], x.length < t.length := by
  refine ⟨packLoop_entry_sublist sep C t, ?_, ?_⟩
  · intro ch hch
    have hc : sep.count ch = 0 := List.count_eq_zero.mpr (fun hmem => hch (hok ch hmem))
    exact packLoop_entry_count sep C t ch hc
  · intro x hx
    have h1 := length_lt_join_length hx hacc (fun y hy => packLoop_mem_ne_nil sep C _ _ y hy)
    have h2 : (packLoop sep C (splitOnSep sep t) []).join.length ≤ t.length :=
      (packLoop_entry_sublist sep C t).length_le
    omega

theorem splitTextRecGo_keeps (C : ℕ) (hC : 1 ≤ C) :
    ∀ (f : ℕ) (t : List Char), t ≠ [] → t.length ≤ f →
      ∃ out, splitTextRecGo C 0 defaultSeparators f t = some out ∧
        out.join.Sublist t ∧ ∀ ch, ch ∉ sepChars → out.join.count ch = t.count ch := by
  intro f
  induction f with
  | zero =>
    intro t ht hlen
    exact absurd (List.length_pos.mpr ht) (by omega)
  | succ f ih =>
    intro t ht hlen
    obtain ⟨fc0, hfc0, hp⟩ := trySeps_spec C 0 t (by omega) defaultSeparators
    rcases hp with hnil | hpack | hsbs
    · subst hnil
      obtain ⟨chunks, hchunks⟩ :=
        Option.isSome_iff_exists.mp (splitBySize_isSome C 0 t (by omega))
      have hjoin := splitBySize_join C t chunks hC hchunks
      have hmem := splitBySize_mem_length C 0 t chunks (by omega) hchunks
      obtain ⟨out, hout, hsub, hcnt⟩ := recurseChunks_spec _ C chunks
        (fun x hx h => absurd h (not_lt.mpr (hmem x hx)))
      refine ⟨out, ?_, ?_, ?_⟩
      · rw [splitTextRecGo_succ_eq C 0 f t [] chunks hfc0 (by simp [hchunks])]
        exact hout
      · rw [hjoin] at hsub; exact hsub
      · intro ch hch; rw [hcnt ch hch, hjoin]
    · obtain ⟨sep, hsepmem, hsepne, hreq, hacc⟩ := hpack
      subst hreq
      have hsepok := (defaultSeparators_ok sep hsepmem).resolve_left hsepne
      obtain ⟨hsub0, hcnt0, hlt0⟩ := packAccepted_facts sep C t hsepok hacc
      obtain ⟨out, hout, hsub, hcnt⟩ := recurseChunks_spec _ C _
        (fun x hx h => by
          have hxlen := hlt0 x hx
          have hxne : x ≠ [] := by
            intro hxe; rw [hxe] at h; exact absurd h (by simp)
          exact ih x hxne (by omega))
      refine ⟨out, ?_, hsub.trans hsub0, ?_⟩
      · rw [splitTextRecGo_succ_eq C 0 f t _ _ hfc0 (by rw [if_neg (by omega)])]
        exact hout
      · intro ch hch; rw [hcnt ch hch, hcnt0 ch hch]
    · obtain ⟨hchunks, hacc⟩ := hsbs
      have hjoin := splitBySize_join C t fc0 hC hchunks
      have hmem := splitBySize_mem_length C 0 t fc0 (by omega) hchunks
      obtain ⟨out, hout, hsub, hcnt⟩ := recurseChunks_spec _ C fc0
        (fun x hx h => absurd h (not_lt.mpr (hmem x hx)))
      refine ⟨out, ?_, ?_, ?_⟩
      · rw [splitTextRecGo_succ_eq C 0 f t fc0 fc0 hfc0 (by rw [if_neg (by omega)])]
        exact hout
      · rw [hjoin] at hsub; exact hsub
      · intro ch hch; rw [hcnt ch hch, hjoin]

theorem splitTextRecGo_isSome_of (C O : ℕ) (hCO : O < C) :
    ∀ (f : ℕ) (t : List Char), t ≠ [] → t.length ≤ f →
      (splitTextRecGo C O defaultSeparators f t).isSome := by
  intro f
  induction f with
  | zero =>
    intro t ht hlen
    exact absurd (List.length_pos.mpr ht) (by omega)
  | succ f ih =>
    intro t ht hlen
    obtain ⟨fc0, hfc0, hp⟩ := trySeps_spec C O t hCO defaultSeparators
    rcases hp with hnil | hpack | hsbs
    · subst hnil
      obtain ⟨chunks, hchunks⟩ := Option.isSome_iff_exists.mp (splitBySize_isSome C O t hCO)
      have hmem := splitBySize_mem_length C O t chunks hCO hchunks
      rw [splitTextRecGo_succ_eq C O f t [] chunks hfc0 (by simp [hchunks])]
      exact recurseChunks_isSome _ C chunks (fun x hx h => absurd h (not_lt.mpr (hmem x hx)))
    · obtain ⟨sep, hsepmem, hsepne, hreq, hacc⟩ := hpack
      subst hreq
      have hsepok := (defaultSeparators_ok sep hsepmem).resolve_left hsepne
      obtain ⟨hsub0, hcnt0, hlt0⟩ := packAccepted_facts sep C t hsepok hacc
      rw [splitTextRecGo_succ_eq C O f t _ _ hfc0 (by rw [if_neg (by omega)])]
      exact recurseChunks_isSome _ C _
        (fun x hx h => by
          have hxlen := hlt0 x hx
          have hxne : x ≠ [] := by
            intro hxe; rw [hxe] at h; exact absurd h (by simp)
          exact ih x hxne (by omega))
    · obtain ⟨hchunks, hacc⟩ := hsbs
      have hmem := splitBySize_mem_length C O t fc0 hCO hchunks
      rw [splitTextRecGo_succ_eq C O f t fc0 fc0 hfc0 (by rw [if_neg (by omega)])]
      exact recurseChunks_isSome _ C fc0 (fun x hx h => absurd h (not_lt.mpr (hmem x hx)))

theorem splitText_isSome (C O : ℕ) (hCO : O < C) (t : List Char) :
    (splitText C O defaultSeparators t).isSome := by
  by_cases ht : t = []
  · subst ht; rfl
  · by_cases hlen : t.length ≤ C
    · simp [splitText, ht, hlen]
    · have h := splitTextRecGo_isSome_of C O hCO t.length t ht (le_refl _)
      simpa [splitText, ht, hlen] using h

theorem splitTextRecGo_diverges (C O : ℕ) (t : List Char) (hCO : C ≤ O)
    (hns : ∀ ch ∈ t, ch ∉ sepChars) (hne : t ≠ []) :
    ∀ f, splitTextRecGo C O defaultSeparators f t = none := by
  have h1 : containsSeq ['\n', '\n'] t = false :=
    containsSeq_eq_false _ t (by simp) (by decide) hns
  have h2 : containsSeq ['\n'] t = false :=
    containsSeq_eq_false _ t (by simp) (by decide) hns
  have h3 : containsSeq [' '] t = false :=
    containsSeq_eq_false _ t (by simp) (by decide) hns
  have h4 : splitBySize C O t = none := splitBySize_none C O t hCO hne
  have htry : trySeps C O t defaultSeparators = none := by
    simp [trySeps, defaultSeparators, h1, h2, h3, h4]
  intro f
  cases f with
  | zero => rfl
  | succ f => simp [splitTextRecGo, htry]

theorem splitText_diverges (C O : ℕ) (t : List Char) (hCO : C ≤ O)
    (hns : ∀ ch ∈ t, ch ∉ sepChars) (hlen : C < t.length) :
    splitText C O defaultSeparators t = none := by
  have hne : t ≠ [] := by
    intro h; subst h; simp at hlen
  simp only [splitText, if_neg hne, if_neg (by omega : ¬ t.length ≤ C)]
  exact splitTextRecGo_diverges C O t hCO hns hne t.length

/-! ### Claims C2, C10, C3 -/

/-- C2 (amended): with overlap `0`, `splitText` drops only separator
characters: the concatenation of the returned chunks is a subsequence of
the input, and the count of every character other than newline and space is
preserved exactly.  (Exact reconstruction fails: separators between chunks
are discarded — see the counterexample.) -/
theorem claim2_no_char_loss (C : ℕ) (hC : 1 ≤ C) (t : List Char) :
    ∃ out, splitText C 0 defaultSeparators t = some out ∧
      out.join.Sublist t ∧ ∀ ch, ch ∉ sepChars → out.join.count ch = t.count ch := by
  by_cases ht : t = []
  · subst ht; exact ⟨[], rfl, by simp, fun ch _ => rfl⟩
  · by_cases hlen : t.length ≤ C
    · refine ⟨[t], by simp [splitText, ht, hlen], ?_, ?_⟩
      · have hj : ([t] : List (List Char)).join = t := by simp
        rw [hj]
      · intro ch _
        have hj : ([t] : List (List Char)).join = t := by simp
        rw [hj]
    · have h := splitTextRecGo_keeps C hC t.length t ht (le_refl _)
      simpa [splitText, ht, hlen] using h

theorem claim2_witness :
    ∃ out, splitText 3 0 defaultSeparators ("a\n\nb\n\nc".toList) = some out ∧
      out.join.Sublist ("a\n\nb\n\nc".toList) ∧
      ∀ ch, ch ∉ sepChars → out.join.count ch = ("a\n\nb\n\nc".toList).count ch :=
  claim2_no_char_loss 3 (by decide) ("a\n\nb\n\nc".toList)

/-- C2 counterexample: on the specification's own scenario, the chunks are
`["a", "b", "c"]` and their concatenation is `"abc"`, not the input
`"a\n\nb\n\nc"` — with overlap `0` there is no fallback overlap to remove,
so the claimed exact reconstruction fails (the `"\n\n"` separators between
chunks are dropped). -/
theorem claim2_counterexample :
    splitText 3 0 defaultSeparators ("a\n\nb\n\nc".toList) = some [['a'], ['b'], ['c']] ∧
    ([['a'], ['b'], ['c']] : List (List Char)).join ≠ "a\n\nb\n\nc".toList := by
  refine ⟨by decide, by decide⟩

/-- C10: `splitText` terminates whenever `chunkOverlap < chunkSize` (for
every input), and the precondition is necessary: with the constructor's
default `chunkOverlap` of `200` and any `chunkSize` between `1` and `200`,
on separator-free text longer than the chunk size the fixed-width fallback
window never advances and the recursive splitter diverges (`none` for every
fuel). -/
theorem claim10_termination :
    (∀ (C O : ℕ) (t : List Char), O < C → (splitText C O defaultSeparators t).isSome) ∧
    (∀ (cs : ℕ) (t : List Char), 1 ≤ cs → cs ≤ 200 → (∀ ch ∈ t, ch ∉ sepChars) →
      splitterChunkSize (some cs) < t.length →
      splitText (splitterChunkSize (some cs)) (splitterChunkOverlap none) defaultSeparators t
        = none ∧
      ∀ f, splitTextRecGo (splitterChunkSize (some cs)) (splitterChunkOverlap none)
        defaultSeparators f t = none) := by
  constructor
  · intro C O t h
    exact splitText_isSome C O h t
  · intro cs t h1 h2 hns hlen
    have hcs : splitterChunkSize (some cs) = cs := by
      simp only [splitterChunkSize]
      rw [if_neg (by omega)]
    have hco : splitterChunkOverlap none = 200 := rfl
    rw [hcs] at hlen
    rw [hcs, hco]
    refine ⟨splitText_diverges cs 200 t (by omega) hns hlen, ?_⟩
    have hne : t ≠ [] := by
      intro h; subst h; simp at hlen
    exact splitTextRecGo_diverges cs 200 t (by omega) hns hne

theorem claim10_witness :
    (splitText 3 1 defaultSeparators ("abcdefg".toList)).isSome ∧
    splitText (splitterChunkSize (some 100)) (splitterChunkOverlap none) defaultSeparators
      (List.replicate 101 'x') = none :=
  ⟨claim10_termination.1 3 1 ("abcdefg".toList) (by decide),
   (claim10_termination.2 100 (List.replicate 101 'x') (by decide) (by decide)
      (fun ch hch => by rw [List.eq_of_mem_replicate hch]; decide)
      (by decide)).1⟩

theorem trimPromptGo_succ (tok : List Char → ℕ) (N f : ℕ) (prompt : List Char) :
    trimPromptGo tok N (f + 1) prompt =
      if prompt = [] then some []
      else if tok prompt ≤ N then some prompt
      else if ((prompt.length : ℤ) - ((tok prompt - N : ℕ) : ℤ) * 3) < (MIN_CHUNK_SIZE : ℤ) then
        some (prompt.take MIN_CHUNK_SIZE)
      else
        match splitText (splitterChunkSize
            (some ((prompt.length : ℤ) - ((tok prompt - N : ℕ) : ℤ) * 3).toNat))
            (splitterChunkOverlap (some 0)) defaultSeparators prompt with
        | none => none
        | some chunks =>
          if (chunks.headD []).length = prompt.length then
            trimPromptGo tok N f
              (prompt.take ((prompt.length : ℤ) - ((tok prompt - N : ℕ) : ℤ) * 3).toNat)
          else trimPromptGo tok N f (chunks.headD []) := rfl

set_option maxRecDepth 8000 in
/-- C3: against the claim, `trimPrompt` does not terminate for every input:
on 143 `'x'` characters (no separators) with any budget one below the
measured token count, the computed character budget is exactly
`MIN_CHUNK_SIZE = 140`, the floor branch is skipped, and the splitter the
source builds runs with `chunkSize 140` but `chunkOverlap 200` — the
constructor replaces the explicitly passed `0` — so its window never
advances and `trimPrompt` diverges (`none` for every fuel). -/
theorem claim3_trim_divergence (tok : List Char → ℕ)
    (h : 1 ≤ tok (List.replicate 143 'x')) :
    ∀ f, trimPromptGo tok (tok (List.replicate 143 'x') - 1) f
      (List.replicate 143 'x') = none := by
  have hns : ∀ ch ∈ List.replicate 143 'x', ch ∉ sepChars := by
    intro ch hch
    rw [List.eq_of_mem_replicate hch]
    decide
  have hne : (List.replicate 143 'x' : List Char) ≠ [] := by simp
  have hsplit : splitText 140 200 defaultSeparators (List.replicate 143 'x') = none :=
    splitText_diverges 140 200 _ (by omega) hns (by simp)
  intro f
  cases f with
  | zero => rfl
  | succ f =>
    have hlen : (List.replicate 143 'x').length = 143 := by simp
    have hov : tok (List.replicate 143 'x') - (tok (List.replicate 143 'x') - 1) = 1 := by
      omega
    rw [trimPromptGo_succ, if_neg hne,
      if_neg (by omega : ¬ tok (List.replicate 143 'x') ≤ tok (List.replicate 143 'x') - 1),
      hov, hlen]
    set xs := List.replicate 143 'x' with hxs
    norm_num [MIN_CHUNK_SIZE, splitterChunkSize, splitterChunkOverlap]
    rw [show Int.toNat 140 = 140 from rfl, hsplit]

theorem claim3_witness :
    1 ≤ List.length (List.replicate 143 'x') ∧
    trimPromptGo List.length (List.length (List.replicate 143 'x') - 1) 200
      (List.replicate 143 'x') = none :=
  ⟨by simp, claim3_trim_divergence List.length (by simp) 200⟩

set_option maxRecDepth 40000 in
example : trimPrompt List.length 100 (List.replicate 143 'x') =
    some (List.replicate 140 'x') := by decide

set_option maxRecDepth 40000 in
example : trimPrompt List.length 142 (List.replicate 143 'x') = none := by decide
